import Mathlib

/-!
# Verification of the block-propagation / mining simulator (`sim.py`)

Shallow embedding of the simulator's data model and operations.

Modelling conventions, justified by the spec's declared non-goals:

* **Hashes.**  `Block.__init__` computes `sha256(f"{height}{miner}{parent_hash}")`.
  Cryptographic security of the hash is an explicit non-goal, and the spec states
  that correctness depends on the digest *uniquely identifying* the tuple
  (height, miner identity, parent hash); since that tuple recursively determines
  the whole block value, we identify a block's hash with the block value itself:
  the dictionaries `known_blocks`/`rejected_blocks` (hash → block, with the key
  always the value's own hash) become insertion-ordered lists of blocks, and
  Python's `h in dict` becomes list membership with structural equality.
  A separate definition `blockHashStr` reproduces the literal string preimage
  computation (including the miner object's `repr`, which contains its memory
  address) for the determinism analysis.
* **Randomness.**  Draws from the (process-global) `random` module are
  modelled as oracle inputs: `random.random() < probability_per_second` becomes a
  `Bool` argument, `random.choice(l)` becomes indexing by `r % l.length` for an
  oracle-supplied `r : Nat`.  The floating-point probability itself is never
  needed by any claim.
* **Miner identity.**  Python compares `block.miner == self` by object identity;
  miners are modelled by a numeric id.
-/

/-- A `Block` (sim.py lines 50-64): `height`, `time`, optional `parent`,
optional `miner`.  The two constructors distinguish presence of a parent
(`genesis` ↔ `parent is None`); the miner field stays optional in both. -/
inductive Block where
  | genesis (height : Nat) (time : Nat) (miner : Option Nat) : Block
  | mined (height : Nat) (time : Nat) (parent : Block) (miner : Option Nat) : Block
deriving DecidableEq, Repr

/-- `block.height`. -/
def Block.height : Block → Nat
  | .genesis h _ _ => h
  | .mined h _ _ _ => h

/-- `block.parent` (`none` exactly when the Python field is `None`). -/
def Block.parent? : Block → Option Block
  | .genesis _ _ _ => none
  | .mined _ _ p _ => some p

/-- `block.miner`. -/
def Block.miner : Block → Option Nat
  | .genesis _ _ m => m
  | .mined _ _ _ m => m

/-- The strict ancestors of a block: parent, grandparent, ... (finite since the
parent chain is part of the block value). -/
def Block.ancestors : Block → List Block
  | .genesis _ _ _ => []
  | .mined _ _ p _ => p :: p.ancestors

/-- One outgoing `Connection` (sim.py lines 9-30), seen from its owning sender:
receiver index, fixed `delay`, and the pending queue `blocks_to_send` of
(block, time-to-send) entries. -/
structure ConnSt where
  receiver : Nat
  delay : Nat
  blocks_to_send : List (Block × Nat)
deriving DecidableEq, Repr

/-- `Connection.queue_block` (sim.py 29-30): append `(block, delay)`. -/
def queueBlockC (c : ConnSt) (b : Block) : ConnSt :=
  { c with blocks_to_send := c.blocks_to_send ++ [(b, c.delay)] }

/-- The mutable state of a `Miner` (sim.py lines 66-88).  The float fields
`hashrate_proportion` / `probability_per_second` are omitted: they are only
consumed by the Bernoulli draw, which is an oracle input in this model. -/
structure MinerSt where
  minerId : Nat
  current_block : Block
  block_candidates : List Block
  known_blocks : List Block
  rejected_blocks : List Block
  blocks_mined : Nat
  connections : List ConnSt
deriving DecidableEq, Repr

/-- `Miner.__init__` (sim.py 79-88): tip and `known_blocks` hold the initial
block, everything else empty. -/
def initMiner (name : Nat) (initial_block : Block) : MinerSt :=
  { minerId := name
    current_block := initial_block
    block_candidates := []
    known_blocks := [initial_block]
    rejected_blocks := []
    blocks_mined := 0
    connections := [] }

/-- `Miner.add_connection` (sim.py 91-92). -/
def addConnection (m : MinerSt) (receiver : Nat) (delay : Nat) : MinerSt :=
  { m with connections := m.connections ++ [⟨receiver, delay, []⟩] }

/-- `Miner.is_mine` (sim.py 94-95): `block.miner == self` (object identity,
modelled by the numeric id; the genesis miner `None` is never equal). -/
def isMine (selfId : Nat) (b : Block) : Bool :=
  b.miner == some selfId

/-- Python dict insertion `d[b.hash] = b` for our hash-indexed block sets:
if the key (= the block) is present the value is overwritten in place with the
same value, otherwise the entry is appended (dicts preserve insertion order). -/
def insertBlock (l : List Block) (b : Block) : List Block :=
  if b ∈ l then l else l ++ [b]

/-- The scan inside `Miner.refresh_rejects` (sim.py 137-143): walk
`rejected_blocks` in insertion order; each visited entry is first checked by
`assert reject_block.parent is not None` (failure = `none`); return the first
block whose parent is in `known_blocks` (`some (some b)`), or `some none` when
a full scan finds nothing. -/
def scanRejects (known : List Block) : List Block → Option (Option Block)
  | [] => some none
  | b :: rest =>
    match b.parent? with
    | none => none
    | some p => if p ∈ known then some (some b) else scanRejects known rest

/-- Recursion of `Miner.refresh_rejects` (sim.py 136-149), with explicit fuel
(each round removes one block from `rejected_blocks`, so
`rejected.length + 1` fuel always suffices): when the scan finds a movable
block, insert it into `known_blocks`, pop it from `rejected_blocks`, repeat. -/
def refreshAux : Nat → List Block → List Block → Option (List Block × List Block)
  | 0, _, _ => none
  | fuel + 1, known, rejected =>
    match scanRejects known rejected with
    | none => none
    | some none => some (known, rejected)
    | some (some b) => refreshAux fuel (insertBlock known b) (rejected.erase b)

/-- `Miner.refresh_rejects` (sim.py 136-149), operating on the pair
(`known_blocks`, `rejected_blocks`). -/
def refreshRejects (known rejected : List Block) : Option (List Block × List Block) :=
  refreshAux (rejected.length + 1) known rejected

/-- `Miner.receive_block` (sim.py 152-175).  `none` models the assertion
failure on a parentless block (line 154). -/
def receiveBlock (m : MinerSt) (b : Block) : Option MinerSt :=
  match b.parent? with
  | none => none
  | some p =>
    if b ∈ m.known_blocks then some m
    else if p ∈ m.known_blocks then
      (refreshRejects (insertBlock m.known_blocks b) m.rejected_blocks).map (fun kr =>
        { m with
          known_blocks := kr.1
          rejected_blocks := kr.2
          block_candidates :=
            if b.height > m.current_block.height then m.block_candidates ++ [b]
            else m.block_candidates })
    else
      some { m with rejected_blocks := insertBlock m.rejected_blocks b }

/-- Python's `max` over a non-empty sequence (`none` models the `ValueError`
raised on an empty one, sim.py line 100). -/
def pyMax : List Nat → Option Nat
  | [] => none
  | x :: xs => some (xs.foldl max x)

/-- `Miner.evaluate_candidates` (sim.py 98-112).  The `for`/`return` loop that
prefers a self-mined max-height candidate is the first match of `find?`;
`random.choice` is indexing by the oracle draw `r` modulo the list length
(`none` models `choice`'s failure on an empty list, which is unreachable). -/
def evaluateCandidates (m : MinerSt) (r : Nat) : Option MinerSt :=
  (pyMax (m.block_candidates.map Block.height)).bind fun maxHeight =>
    let top := m.block_candidates.filter (fun b => b.height == maxHeight)
    (top.find? (fun b => isMine m.minerId b)).elim
      ((top[r % top.length]?).map fun chosen =>
        { m with current_block := chosen, block_candidates := [] })
      (fun own => some { m with current_block := own, block_candidates := [] })

/-- `Miner.announce` (sim.py 124-127): bump `blocks_mined`, queue the block on
every outgoing connection. -/
def announce (m : MinerSt) (b : Block) : MinerSt :=
  { m with
    blocks_mined := m.blocks_mined + 1
    connections := m.connections.map (fun c => queueBlockC c b) }

/-- `Miner.mine` (sim.py 114-122).  `success` is the oracle outcome of
`random.random() < probability_per_second` (drawn every call); `r` is the
oracle value feeding a possible `random.choice` inside the evaluation. -/
def mine (m : MinerSt) (t : Nat) (success : Bool) (r : Nat) : Option MinerSt :=
  (if m.block_candidates.length > 0 then evaluateCandidates m r else some m).bind fun m1 =>
    if success then
      let found := Block.mined (m1.current_block.height + 1) t m1.current_block (some m1.minerId)
      some (announce
        { m1 with
          known_blocks := insertBlock m1.known_blocks found
          block_candidates := m1.block_candidates ++ [found] } found)
    else some m1

/-! ## Connection delay-queue semantics (`Connection.tick`, sim.py 37-48) -/

/-- One `Connection.tick` pass over the pending queue: entries whose
time-to-send is 0 are delivered (in insertion order), every other entry has its
counter decremented and is kept (in insertion order).  Returns
(delivered blocks, remaining queue). -/
def tickQueue : List (Block × Nat) → List Block × List (Block × Nat)
  | [] => ([], [])
  | (b, t) :: rest =>
    let p := tickQueue rest
    if t = 0 then (b :: p.1, p.2) else (p.1, (b, t - 1) :: p.2)

/-- The queue left after `n` ticks. -/
def queueAfter : Nat → List (Block × Nat) → List (Block × Nat)
  | 0, q => q
  | n + 1, q => queueAfter n (tickQueue q).2

/-- The blocks delivered on the `n`-th tick after the queue was in state `q`
(`n ≥ 1`; the first tick after queuing is tick 1). -/
def deliveredOnTick (n : Nat) (q : List (Block × Nat)) : List Block :=
  (tickQueue (queueAfter (n - 1) q)).1

/-! ## The driver (`main`, sim.py 178-202)

The world is the list of miner states; connection receivers are indices into
it.  RNG draws are supplied by an oracle indexed by (tick, miner index). -/

/-- Oracle for the two RNG consumptions of `Miner.mine` at a given tick for a
given miner: the Bernoulli outcome and the value feeding `random.choice`. -/
def SimOracle : Type := Nat → Nat → Bool × Nat

/-- Deliver the blocks of one ticked connection, in order, to its receiver
(`Connection.send_block` → `receive_block`, sim.py 32-35, 43).  Any assertion
failure inside `receive_block` (or a dangling receiver index, impossible in
Python where the receiver is a direct object reference) aborts with `none`. -/
def deliverAll (ms : List MinerSt) (receiver : Nat) : List Block → Option (List MinerSt)
  | [] => some ms
  | b :: bs =>
    match ms[receiver]? with
    | none => none
    | some rm =>
      match receiveBlock rm b with
      | none => none
      | some rm' => deliverAll (ms.set receiver rm') receiver bs

/-- Tick the `j`-th connection of miner `i` (`Connection.tick`, sim.py 37-48):
compute (delivered, remaining), store the remaining queue, deliver the due
blocks in insertion order to the receiver. -/
def tickConnAt (ms : List MinerSt) (i j : Nat) : Option (List MinerSt) :=
  match ms[i]? with
  | none => none
  | some m =>
    match m.connections[j]? with
    | none => none
    | some c =>
      let p := tickQueue c.blocks_to_send
      let m' := { m with connections := m.connections.set j { c with blocks_to_send := p.2 } }
      deliverAll (ms.set i m') c.receiver p.1

/-- `Miner.send_messages` (sim.py 129-131): tick every outgoing connection of
miner `i`, in order. -/
def sendMessagesW (ms : List MinerSt) (i : Nat) : Option (List MinerSt) :=
  match ms[i]? with
  | none => none
  | some m =>
    (List.range m.connections.length).foldl (fun acc j => acc.bind (tickConnAt · i j)) (some ms)

/-- The announcement phase of one tick (sim.py 197-199). -/
def sendPhase (ms : List MinerSt) : Option (List MinerSt) :=
  (List.range ms.length).foldl (fun acc i => acc.bind (sendMessagesW · i)) (some ms)

/-- The mining phase of one tick (sim.py 200-202). -/
def minePhase (O : SimOracle) (t : Nat) (ms : List MinerSt) : Option (List MinerSt) :=
  (List.range ms.length).foldl
    (fun acc i => acc.bind (fun ms' =>
      match ms'[i]? with
      | none => none
      | some m =>
        match mine m t (O t i).1 (O t i).2 with
        | none => none
        | some m' => some (ms'.set i m')))
    (some ms)

/-- One tick of the driver loop body (sim.py 196-202): announcement phase over
all miners, then mining phase over all miners. -/
def worldTick (O : SimOracle) (t : Nat) (ms : List MinerSt) : Option (List MinerSt) :=
  (sendPhase ms).bind (minePhase O t)

/-- `seconds_to_simulate = block_periods_to_simulate * 600` (sim.py 179). -/
def secondsToSimulate (p : Nat) : Nat := p * 600

/-- The tick values of the driver loop, `for t in range(1, seconds_to_simulate)`
(sim.py 196): the list `[1, 2, ..., seconds_to_simulate - 1]`. -/
def simTicks (p : Nat) : List Nat := List.range' 1 (secondsToSimulate p - 1)

/-- The driver loop of `main` (sim.py 196-202) from an arbitrary starting
world. -/
def runMain (O : SimOracle) (p : Nat) (ms : List MinerSt) : Option (List MinerSt) :=
  (simTicks p).foldl (fun acc t => acc.bind (worldTick O t)) (some ms)

/-- `n` tick-steps starting at tick value `t0` (for stating how many times the
driver loop body runs). -/
def applyTicks (O : SimOracle) : Nat → Nat → List MinerSt → Option (List MinerSt)
  | _, 0, ms => some ms
  | t0, n + 1, ms => (worldTick O t0 ms).bind (applyTicks O (t0 + 1) n)

/-! ## End-of-run summary (sim.py 205-227) -/

/-- The `while block.parent is not None` walk of sim.py 213-218: count the
blocks in the tip's ancestor chain (tip included, genesis excluded) whose
miner equals this miner. -/
def blocksInChain (selfId : Nat) : Block → Nat
  | .genesis _ _ _ => 0
  | .mined _ _ p m => (if m == some selfId then 1 else 0) + blocksInChain selfId p

/-- The stale-rate computation of sim.py 224-225:
`stale_rate = stale_blocks / miner.blocks_mined`.  Python raises
`ZeroDivisionError` when `blocks_mined == 0`, modelled as `none`; the float
division is modelled as exact rational division (only the trap matters here). -/
def staleRate (m : MinerSt) : Option ℚ :=
  let inChain := blocksInChain m.minerId m.current_block
  let stale : ℚ := (m.blocks_mined : ℚ) - (inChain : ℚ)
  if m.blocks_mined = 0 then none else some (stale / (m.blocks_mined : ℚ))

/-! ## The literal hash-string computation (`Block.__init__`, sim.py 57-64)

`preimage = f"{height}{miner}{parent_hash}"` interpolates the *miner object*,
whose `repr` is `<__main__.Miner object at 0x...>` — it contains the object's
memory address.  SHA-256 itself is modelled as an injective function of the
preimage (taken to be the identity; cryptographic security is a spec
non-goal), so equality/inequality of digests is equality/inequality of
preimages. -/

/-- `repr` of a Python `Miner` object at memory address `addr`. -/
def minerObjRepr (addr : Nat) : String :=
  "<__main__.Miner object at 0x" ++ (Nat.toDigits 16 addr).asString ++ ">"

/-- The f-string interpolation of the `miner` field: `"None"` for genesis,
the object `repr` (address included) otherwise; `addrOf` gives each miner id
its memory address in this run. -/
def minerFieldStr (addrOf : Nat → Nat) : Option Nat → String
  | none => "None"
  | some i => minerObjRepr (addrOf i)

/-- `block.hash` as the source computes it (sim.py 62-64), with SHA-256
modelled as injective: digest of `f"{height}{miner}{parent_hash}"`, the parent
hash being 64 zeros for a parentless block. -/
def blockHashStr (addrOf : Nat → Nat) : Block → String
  | .genesis h _ m => toString h ++ minerFieldStr addrOf m ++ String.mk (List.replicate 64 '0')
  | .mined h _ p m => toString h ++ minerFieldStr addrOf m ++ blockHashStr addrOf p

/-! ## Sequences of received blocks -/

/-- Fold `receive_block` over a list of incoming blocks (an arbitrary delivery
sequence), propagating assertion failures. -/
def receiveSeq (m : MinerSt) : List Block → Option MinerSt
  | [] => some m
  | b :: bs => (receiveBlock m b).bind (fun m' => receiveSeq m' bs)

/-- Concrete genesis block, as constructed by `main` (sim.py 180). -/
def gBlk : Block := Block.genesis 0 0 none

/-- A block at height 1 on genesis, mined by miner 9. -/
def cb1 : Block := Block.mined 1 10 gBlk (some 9)

/-- A block at height 2 on `cb1`, mined by miner 9. -/
def cb2 : Block := Block.mined 2 11 cb1 (some 9)

/-- Miner 0's state after receiving the orphan `cb2` first: `cb2` is parked in
`rejected_blocks`. -/
def cwAfterOrphan : MinerSt := { initMiner 0 gBlk with rejected_blocks := [cb2] }

/-- Miner 0's state after then receiving `cb1`: reconciliation has moved `cb2`
into `known_blocks`, but only the directly received `cb1` was appended to the
candidate set. -/
def cwAfterRecon : MinerSt :=
  { minerId := 0, current_block := gBlk, block_candidates := [cb1],
    known_blocks := [gBlk, cb1, cb2], rejected_blocks := [],
    blocks_mined := 0, connections := [] }

/-- Miner 0's state after receiving `cb1` alone (parent = genesis is known):
`cb1` is known and, being above tip height, a candidate. -/
def cwKnown1 : MinerSt :=
  { minerId := 0, current_block := gBlk, block_candidates := [cb1],
    known_blocks := [gBlk, cb1], rejected_blocks := [],
    blocks_mined := 0, connections := [] }

/-- A height-1 block on genesis mined by miner 0 itself. -/
def ownBlk : Block := Block.mined 1 12 gBlk (some 0)

/-- Miner 0 holding two equal-height (height-1) candidates, of which exactly
one (`ownBlk`) is self-mined. -/
def cwTie : MinerSt :=
  { minerId := 0, current_block := gBlk, block_candidates := [cb1, ownBlk],
    known_blocks := [gBlk, cb1, ownBlk], rejected_blocks := [],
    blocks_mined := 0, connections := [] }

/-- A concrete connection: delay 2, one unrelated pending entry. -/
def cCon : ConnSt := { receiver := 1, delay := 2, blocks_to_send := [(cb1, 5)] }

/-- The exact block miner 0 will mine at tick 3 on the genesis tip:
height 1, time 3, parent genesis, miner 0. -/
def pBlk : Block := Block.mined 1 3 gBlk (some 0)

/-- An adversarially delivered block whose (unknown) parent is `pBlk`. -/
def rbBlk : Block := Block.mined 5 0 pBlk (some 7)

/-- Miner 0's state after receiving the orphan `rbBlk` and then successfully
mining at tick 3: the found block *is* `rbBlk`'s parent and sits in
`known_blocks`, while `rbBlk` is still in `rejected_blocks` (because `mine`
inserts into `known_blocks` without running `refresh_rejects`). -/
def c7State : MinerSt :=
  { minerId := 0, current_block := gBlk, block_candidates := [pBlk],
    known_blocks := [gBlk, pBlk], rejected_blocks := [rbBlk],
    blocks_mined := 1, connections := [] }

/-- A constant address assignment: every miner object at address 0x1000. -/
def addrsA : Nat → Nat := fun _ => 4096

/-- A different constant address assignment: every miner object at 0x2000. -/
def addrsB : Nat → Nat := fun _ => 8192

/-- The three-miner world built by `main` (sim.py 181-194): miners A, B, C
(ids 0, 1, 2; the hashrate proportions 0.3/0.3/0.4 only feed the Bernoulli
oracle) with the directed delay topology of lines 187-194. -/
def initWorld : List MinerSt :=
  [ addConnection (addConnection (initMiner 0 gBlk) 1 0) 2 5,
    addConnection (addConnection (initMiner 1 gBlk) 0 0) 2 0,
    addConnection (addConnection (initMiner 2 gBlk) 0 0) 1 0 ]

/-- The oracle on which every Bernoulli draw fails: no miner ever finds a
block. -/
def oracleNone : SimOracle := fun _ _ => (false, 0)

/-! ## Helper lemmas -/

example : receiveBlock (initMiner 0 gBlk) cb2 = some cwAfterOrphan := by decide

example : receiveBlock cwAfterOrphan cb1 = some cwAfterRecon := by decide

example : worldTick oracleNone 5 initWorld = some initWorld := by decide

theorem foldl_max_le_self (xs : List Nat) (a : Nat) : a ≤ xs.foldl max a := by
  induction xs generalizing a with
  | nil => exact Nat.le_refl a
  | cons x xs ih => exact Nat.le_trans (Nat.le_max_left a x) (ih (max a x))

theorem le_foldl_max_of_mem {xs : List Nat} {x : Nat} (a : Nat) (hx : x ∈ xs) :
    x ≤ xs.foldl max a := by
  induction xs generalizing a with
  | nil => cases hx
  | cons y ys ih =>
    rcases List.mem_cons.mp hx with rfl | hmem
    · exact Nat.le_trans (Nat.le_max_right a x) (foldl_max_le_self ys (max a x))
    · exact ih (max a y) hmem

theorem foldl_max_mem (xs : List Nat) (a : Nat) :
    xs.foldl max a = a ∨ xs.foldl max a ∈ xs := by
  induction xs generalizing a with
  | nil => exact Or.inl rfl
  | cons x xs ih =>
    rcases ih (max a x) with h | h
    · rcases Nat.le_total a x with hax | hxa
      · right; rw [List.foldl_cons, h, Nat.max_eq_right hax]; exact List.mem_cons_self x xs
      · left; rw [List.foldl_cons, h, Nat.max_eq_left hxa]
    · right; exact List.mem_cons_of_mem x h

theorem pyMax_spec {l : List Nat} {v : Nat} (h : pyMax l = some v) :
    v ∈ l ∧ ∀ x ∈ l, x ≤ v := by
  cases l with
  | nil => cases h
  | cons x xs =>
    have hv : v = xs.foldl max x := by
      have := h; unfold pyMax at this; exact (Option.some.inj this).symm
    subst hv
    constructor
    · rcases foldl_max_mem xs x with h1 | h1
      · rw [h1]; exact List.mem_cons_self x xs
      · exact List.mem_cons_of_mem x h1
    · intro y hy
      rcases List.mem_cons.mp hy with rfl | hmem
      · exact foldl_max_le_self xs y
      · exact le_foldl_max_of_mem x hmem

theorem pyMax_isSome {l : List Nat} (h : l ≠ []) : (pyMax l).isSome := by
  cases l with
  | nil => exact absurd rfl h
  | cons x xs => rfl

theorem mem_insertBlock_self (l : List Block) (b : Block) : b ∈ insertBlock l b := by
  unfold insertBlock
  split
  · assumption
  · exact List.mem_append_right l (List.mem_singleton.mpr rfl)

theorem mem_insertBlock_of_mem {l : List Block} {x : Block} (b : Block) (hx : x ∈ l) :
    x ∈ insertBlock l b := by
  unfold insertBlock
  split
  · exact hx
  · exact List.mem_append_left _ hx

theorem mem_insertBlock_iff {l : List Block} {x b : Block} :
    x ∈ insertBlock l b ↔ x ∈ l ∨ x = b := by
  unfold insertBlock
  split
  · constructor
    · exact Or.inl
    · rintro (hx | rfl)
      · exact hx
      · assumption
  · rw [List.mem_append, List.mem_singleton]

theorem scanRejects_cons_genesis (known rest : List Block) (h t : Nat) (mo : Option Nat) :
    scanRejects known (Block.genesis h t mo :: rest) = none := rfl

theorem scanRejects_cons_mined (known rest : List Block) (h t : Nat) (p : Block)
    (mo : Option Nat) :
    scanRejects known (Block.mined h t p mo :: rest) =
      if p ∈ known then some (some (Block.mined h t p mo)) else scanRejects known rest := rfl

theorem scanRejects_none_spec {known rej : List Block}
    (h : scanRejects known rej = some none) :
    ∀ b ∈ rej, ∀ p, b.parent? = some p → p ∉ known := by
  induction rej with
  | nil => intro b hb; cases hb
  | cons x xs ih =>
    intro b hb p hp hpk
    cases x with
    | genesis hh tt mo => rw [scanRejects_cons_genesis] at h; cases h
    | mined hh tt q mo =>
      rw [scanRejects_cons_mined] at h
      by_cases hq : q ∈ known
      · rw [if_pos hq] at h; cases h
      · rw [if_neg hq] at h
        rcases List.mem_cons.mp hb with rfl | hmem
        · have : q = p := Option.some.inj hp
          subst this
          exact hq hpk
        · exact ih h b hmem p hp hpk

theorem scanRejects_some_spec {known rej : List Block} {b : Block}
    (h : scanRejects known rej = some (some b)) :
    b ∈ rej ∧ ∃ p, b.parent? = some p ∧ p ∈ known := by
  induction rej with
  | nil => cases h
  | cons x xs ih =>
    cases x with
    | genesis hh tt mo => rw [scanRejects_cons_genesis] at h; cases h
    | mined hh tt q mo =>
      rw [scanRejects_cons_mined] at h
      by_cases hq : q ∈ known
      · rw [if_pos hq] at h
        have hb : Block.mined hh tt q mo = b := Option.some.inj (Option.some.inj h)
        subst hb
        exact ⟨List.mem_cons_self _ xs, q, rfl, hq⟩
      · rw [if_neg hq] at h
        obtain ⟨hmem, hp⟩ := ih h
        exact ⟨List.mem_cons_of_mem _ hmem, hp⟩

theorem refreshAux_post {fuel : Nat} {k r k' r' : List Block}
    (h : refreshAux fuel k r = some (k', r')) :
    ∀ b ∈ r', ∀ p, b.parent? = some p → p ∉ k' := by
  induction fuel generalizing k r with
  | zero => cases h
  | succ fuel ih =>
    unfold refreshAux at h
    match hs : scanRejects k r with
    | none => rw [hs] at h; cases h
    | some none =>
      rw [hs] at h
      obtain ⟨rfl, rfl⟩ : k = k' ∧ r = r' := by
        have := Option.some.inj h
        exact ⟨congrArg Prod.fst this, congrArg Prod.snd this⟩
      exact scanRejects_none_spec hs
    | some (some b) =>
      rw [hs] at h
      exact ih h

theorem refreshAux_known_mono {fuel : Nat} {k r k' r' : List Block}
    (h : refreshAux fuel k r = some (k', r')) :
    ∀ x ∈ k, x ∈ k' := by
  induction fuel generalizing k r with
  | zero => cases h
  | succ fuel ih =>
    unfold refreshAux at h
    match hs : scanRejects k r with
    | none => rw [hs] at h; cases h
    | some none =>
      rw [hs] at h
      have hk : k = k' := congrArg Prod.fst (Option.some.inj h)
      subst hk; intro x hx; exact hx
    | some (some b) =>
      rw [hs] at h
      intro x hx
      exact ih h x (mem_insertBlock_of_mem b hx)

theorem refreshAux_keep {fuel : Nat} {k r k' r' : List Block}
    (h : refreshAux fuel k r = some (k', r')) :
    ∀ x, x ∈ k ∨ x ∈ r → x ∈ k' ∨ x ∈ r' := by
  induction fuel generalizing k r with
  | zero => cases h
  | succ fuel ih =>
    unfold refreshAux at h
    match hs : scanRejects k r with
    | none => rw [hs] at h; cases h
    | some none =>
      rw [hs] at h
      have hk : k = k' := congrArg Prod.fst (Option.some.inj h)
      have hr : r = r' := congrArg Prod.snd (Option.some.inj h)
      subst hk; subst hr; intro x hx; exact hx
    | some (some b) =>
      rw [hs] at h
      intro x hx
      rcases hx with hx | hx
      · exact ih h x (Or.inl (mem_insertBlock_of_mem b hx))
      · by_cases hxb : x = b
        · subst hxb
          exact ih h x (Or.inl (mem_insertBlock_self k x))
        · exact ih h x (Or.inr ((List.mem_erase_of_ne hxb).mpr hx))

theorem receiveBlock_genesis (m : MinerSt) (h t : Nat) (mo : Option Nat) :
    receiveBlock m (Block.genesis h t mo) = none := rfl

theorem receiveBlock_mined (m : MinerSt) (h t : Nat) (p : Block) (mo : Option Nat) :
    receiveBlock m (Block.mined h t p mo) =
      (if Block.mined h t p mo ∈ m.known_blocks then some m
       else if p ∈ m.known_blocks then
        (refreshRejects (insertBlock m.known_blocks (Block.mined h t p mo))
            m.rejected_blocks).map (fun kr =>
          { m with
            known_blocks := kr.1
            rejected_blocks := kr.2
            block_candidates :=
              if (Block.mined h t p mo).height > m.current_block.height then
                m.block_candidates ++ [Block.mined h t p mo]
              else m.block_candidates })
       else some { m with
        rejected_blocks := insertBlock m.rejected_blocks (Block.mined h t p mo) }) := rfl

/-- The spec invariant on orphans (spec §3, Miner): no block in
`rejected_blocks` has its parent in `known_blocks`. -/
def RejInv (m : MinerSt) : Prop :=
  ∀ rb ∈ m.rejected_blocks, ∀ p, rb.parent? = some p → p ∉ m.known_blocks

/-- `receive_block` re-establishes the orphan invariant: after a successful
call, no rejected block has its parent among the known blocks. -/
theorem receiveBlock_rejInv {m m' : MinerSt} {b : Block}
    (h : receiveBlock m b = some m') (hinv : RejInv m) : RejInv m' := by
  cases b with
  | genesis hh tt mo => rw [receiveBlock_genesis] at h; cases h
  | mined hh tt p mo =>
    rw [receiveBlock_mined] at h
    by_cases hk : Block.mined hh tt p mo ∈ m.known_blocks
    · rw [if_pos hk] at h
      have := Option.some.inj h
      subst this
      exact hinv
    · rw [if_neg hk] at h
      by_cases hp : p ∈ m.known_blocks
      · rw [if_pos hp] at h
        obtain ⟨kr, hkr, hm'⟩ := Option.map_eq_some'.mp h
        subst hm'
        intro rb hrb q hq
        exact refreshAux_post hkr rb hrb q hq
      · rw [if_neg hp] at h
        have := Option.some.inj h
        subst this
        intro rb hrb q hq
        rcases mem_insertBlock_iff.mp hrb with hrb | rfl
        · exact hinv rb hrb q hq
        · have : p = q := Option.some.inj hq
          subst this
          exact hp

/-- `receive_block` never removes a block from `known_blocks`. -/
theorem receiveBlock_known_mono {m m' : MinerSt} {b : Block}
    (h : receiveBlock m b = some m') : ∀ x ∈ m.known_blocks, x ∈ m'.known_blocks := by
  cases b with
  | genesis hh tt mo => rw [receiveBlock_genesis] at h; cases h
  | mined hh tt p mo =>
    rw [receiveBlock_mined] at h
    by_cases hk : Block.mined hh tt p mo ∈ m.known_blocks
    · rw [if_pos hk] at h
      have := Option.some.inj h
      subst this
      exact fun x hx => hx
    · rw [if_neg hk] at h
      by_cases hp : p ∈ m.known_blocks
      · rw [if_pos hp] at h
        obtain ⟨kr, hkr, hm'⟩ := Option.map_eq_some'.mp h
        subst hm'
        intro x hx
        exact refreshAux_known_mono hkr x (mem_insertBlock_of_mem _ hx)
      · rw [if_neg hp] at h
        have := Option.some.inj h
        subst this
        exact fun x hx => hx

/-- `receive_block` never drops a block: everything that was known or
rejected before is known or rejected after. -/
theorem receiveBlock_keep {m m' : MinerSt} {b : Block}
    (h : receiveBlock m b = some m') :
    ∀ x, x ∈ m.known_blocks ∨ x ∈ m.rejected_blocks →
      x ∈ m'.known_blocks ∨ x ∈ m'.rejected_blocks := by
  cases b with
  | genesis hh tt mo => rw [receiveBlock_genesis] at h; cases h
  | mined hh tt p mo =>
    rw [receiveBlock_mined] at h
    by_cases hk : Block.mined hh tt p mo ∈ m.known_blocks
    · rw [if_pos hk] at h
      have := Option.some.inj h
      subst this
      exact fun x hx => hx
    · rw [if_neg hk] at h
      by_cases hp : p ∈ m.known_blocks
      · rw [if_pos hp] at h
        obtain ⟨kr, hkr, hm'⟩ := Option.map_eq_some'.mp h
        subst hm'
        intro x hx
        rcases hx with hx | hx
        · exact refreshAux_keep hkr x (Or.inl (mem_insertBlock_of_mem _ hx))
        · exact refreshAux_keep hkr x (Or.inr hx)
      · rw [if_neg hp] at h
        have := Option.some.inj h
        subst this
        intro x hx
        rcases hx with hx | hx
        · exact Or.inl hx
        · exact Or.inr (mem_insertBlock_of_mem _ hx)

/-- `receiveSeq` preserves the orphan invariant. -/
theorem receiveSeq_rejInv {m m' : MinerSt} {bs : List Block}
    (h : receiveSeq m bs = some m') (hinv : RejInv m) : RejInv m' := by
  induction bs generalizing m with
  | nil =>
    have := Option.some.inj h
    subst this
    exact hinv
  | cons b bs ih =>
    obtain ⟨m1, hm1, hrest⟩ := Option.bind_eq_some.mp h
    exact ih hrest (receiveBlock_rejInv hm1 hinv)

/-- `receiveSeq` never drops a block from known ∪ rejected. -/
theorem receiveSeq_keep {m m' : MinerSt} {bs : List Block}
    (h : receiveSeq m bs = some m') :
    ∀ x, x ∈ m.known_blocks ∨ x ∈ m.rejected_blocks →
      x ∈ m'.known_blocks ∨ x ∈ m'.rejected_blocks := by
  induction bs generalizing m with
  | nil =>
    have := Option.some.inj h
    subst this
    exact fun x hx => hx
  | cons b bs ih =>
    obtain ⟨m1, hm1, hrest⟩ := Option.bind_eq_some.mp h
    exact fun x hx => ih hrest x (receiveBlock_keep hm1 x hx)

theorem ancestors_mined (h t : Nat) (p : Block) (mo : Option Nat) :
    (Block.mined h t p mo).ancestors = p :: p.ancestors := rfl

theorem tickQueue_cons (b : Block) (t : Nat) (rest : List (Block × Nat)) :
    tickQueue ((b, t) :: rest) =
      if t = 0 then (b :: (tickQueue rest).1, (tickQueue rest).2)
      else ((tickQueue rest).1, (b, t - 1) :: (tickQueue rest).2) := rfl

theorem tickQueue_append (xs ys : List (Block × Nat)) :
    tickQueue (xs ++ ys) =
      ((tickQueue xs).1 ++ (tickQueue ys).1, (tickQueue xs).2 ++ (tickQueue ys).2) := by
  induction xs with
  | nil => rfl
  | cons e rest ih =>
    obtain ⟨x, t⟩ := e
    by_cases ht : t = 0
    · subst ht
      rw [List.cons_append, tickQueue_cons, tickQueue_cons, if_pos rfl, if_pos rfl, ih]
      rfl
    · rw [List.cons_append, tickQueue_cons, tickQueue_cons, if_neg ht, if_neg ht, ih]
      rfl

theorem queueAfter_append (n : Nat) (xs ys : List (Block × Nat)) :
    queueAfter n (xs ++ ys) = queueAfter n xs ++ queueAfter n ys := by
  induction n generalizing xs ys with
  | zero => rfl
  | succ n ih =>
    show queueAfter n (tickQueue (xs ++ ys)).2 = _
    rw [tickQueue_append]
    exact ih _ _

theorem deliveredOnTick_append (n : Nat) (xs ys : List (Block × Nat)) :
    deliveredOnTick n (xs ++ ys) = deliveredOnTick n xs ++ deliveredOnTick n ys := by
  unfold deliveredOnTick
  rw [queueAfter_append, tickQueue_append]

theorem queueAfter_add (a b : Nat) (q : List (Block × Nat)) :
    queueAfter (a + b) q = queueAfter b (queueAfter a q) := by
  induction a generalizing q with
  | zero => rw [Nat.zero_add]; rfl
  | succ a ih =>
    have : a + 1 + b = (a + b) + 1 := by omega
    rw [this]
    show queueAfter (a + b) (tickQueue q).2 = _
    exact ih _

theorem queueAfter_nil (n : Nat) : queueAfter n [] = [] := by
  induction n with
  | zero => rfl
  | succ n ih => exact ih

theorem queueAfter_single (k d : Nat) (b : Block) (h : k ≤ d) :
    queueAfter k [(b, d)] = [(b, d - k)] := by
  induction k generalizing d with
  | zero => rw [Nat.sub_zero]; rfl
  | succ k ih =>
    have hd : d ≠ 0 := by omega
    show queueAfter k (tickQueue [(b, d)]).2 = _
    rw [tickQueue_cons, if_neg hd]
    show queueAfter k [(b, d - 1)] = _
    rw [ih (d - 1) (by omega)]
    congr 2
    omega

theorem deliveredOnTick_single_exact (d : Nat) (b : Block) :
    deliveredOnTick (d + 1) [(b, d)] = [b] := by
  unfold deliveredOnTick
  rw [Nat.add_sub_cancel, queueAfter_single d d b (Nat.le_refl d), Nat.sub_self]
  rfl

theorem deliveredOnTick_single_early (n d : Nat) (b : Block) (h1 : 1 ≤ n) (h2 : n ≤ d) :
    deliveredOnTick n [(b, d)] = [] := by
  unfold deliveredOnTick
  rw [queueAfter_single (n - 1) d b (by omega)]
  rw [tickQueue_cons, if_neg (by omega : d - (n - 1) ≠ 0)]
  rfl

theorem deliveredOnTick_single_late (n d : Nat) (b : Block) (h : d + 1 < n) :
    deliveredOnTick n [(b, d)] = [] := by
  unfold deliveredOnTick
  have hn : n - 1 = (d + 1) + (n - d - 2) := by omega
  rw [hn, queueAfter_add]
  have hq : queueAfter (d + 1) [(b, d)] = [] := by
    have : d + 1 = d + 1 := rfl
    rw [queueAfter_add d 1 [(b, d)], queueAfter_single d d b (Nat.le_refl d), Nat.sub_self]
    rfl
  rw [hq, queueAfter_nil]
  rfl

theorem tickQueue_fst_sub {q : List (Block × Nat)} {x : Block}
    (h : x ∈ (tickQueue q).1) : ∃ t, (x, t) ∈ q := by
  induction q with
  | nil => cases h
  | cons e rest ih =>
    obtain ⟨y, t⟩ := e
    rw [tickQueue_cons] at h
    by_cases ht : t = 0
    · rw [if_pos ht] at h
      rcases List.mem_cons.mp h with rfl | hmem
      · exact ⟨t, List.mem_cons_self _ _⟩
      · obtain ⟨t', ht'⟩ := ih hmem
        exact ⟨t', List.mem_cons_of_mem _ ht'⟩
    · rw [if_neg ht] at h
      obtain ⟨t', ht'⟩ := ih h
      exact ⟨t', List.mem_cons_of_mem _ ht'⟩

theorem tickQueue_snd_sub {q : List (Block × Nat)} {x : Block} {s : Nat}
    (h : (x, s) ∈ (tickQueue q).2) : ∃ t, (x, t) ∈ q := by
  induction q with
  | nil => cases h
  | cons e rest ih =>
    obtain ⟨y, t⟩ := e
    rw [tickQueue_cons] at h
    by_cases ht : t = 0
    · rw [if_pos ht] at h
      obtain ⟨t', ht'⟩ := ih h
      exact ⟨t', List.mem_cons_of_mem _ ht'⟩
    · rw [if_neg ht] at h
      rcases List.mem_cons.mp h with heq | hmem
      · exact ⟨t, by rw [(Prod.mk.injEq _ _ _ _).mp heq |>.1]; exact List.mem_cons_self _ _⟩
      · obtain ⟨t', ht'⟩ := ih hmem
        exact ⟨t', List.mem_cons_of_mem _ ht'⟩

theorem queueAfter_sub {n : Nat} {q : List (Block × Nat)} {x : Block} {s : Nat}
    (h : (x, s) ∈ queueAfter n q) : ∃ t, (x, t) ∈ q := by
  induction n generalizing q s with
  | zero => exact ⟨s, h⟩
  | succ n ih =>
    obtain ⟨t', ht'⟩ := ih (q := (tickQueue q).2) h
    exact tickQueue_snd_sub ht'

theorem deliveredOnTick_sub {n : Nat} {q : List (Block × Nat)} {x : Block}
    (h : x ∈ deliveredOnTick n q) : ∃ t, (x, t) ∈ q := by
  unfold deliveredOnTick at h
  obtain ⟨s, hs⟩ := tickQueue_fst_sub h
  exact queueAfter_sub hs

/-! ## Claims -/

/-- Claim C4: a block queued on a connection is delivered on exactly the
`delay + 1`-st tick of that connection after queuing (so delay 0 delivers on
the very next tick, never the same one), and each tick delivers-and-removes
precisely the entries whose remaining time is 0 while decrementing-and-keeping
every other entry. -/
theorem c4_delay_queue (c : ConnSt) (b : Block) (n : Nat)
    (hfresh : ∀ e ∈ c.blocks_to_send, e.1 ≠ b) (hn : 1 ≤ n) :
    (b ∈ deliveredOnTick n (queueBlockC c b).blocks_to_send ↔ n = c.delay + 1) ∧
    ∀ q : List (Block × Nat),
      tickQueue q = ((q.filter (fun e => e.2 == 0)).map Prod.fst,
                     (q.filter (fun e => e.2 != 0)).map (fun e => (e.1, e.2 - 1))) := by
  constructor
  · have hsplit : deliveredOnTick n (queueBlockC c b).blocks_to_send =
        deliveredOnTick n c.blocks_to_send ++ deliveredOnTick n [(b, c.delay)] := by
      show deliveredOnTick n (c.blocks_to_send ++ [(b, c.delay)]) = _
      exact deliveredOnTick_append n _ _
    have hnotleft : b ∉ deliveredOnTick n c.blocks_to_send := by
      intro hmem
      obtain ⟨t, ht⟩ := deliveredOnTick_sub hmem
      exact hfresh (b, t) ht rfl
    rw [hsplit, List.mem_append]
    constructor
    · rintro (h | h)
      · exact absurd h hnotleft
      · by_contra hne
        rcases Nat.lt_or_ge n (c.delay + 1) with hlt | hge
        · rw [deliveredOnTick_single_early n c.delay b hn (by omega)] at h
          cases h
        · rw [deliveredOnTick_single_late n c.delay b (by omega)] at h
          cases h
    · rintro rfl
      right
      rw [deliveredOnTick_single_exact]
      exact List.mem_singleton.mpr rfl
  · intro q
    induction q with
    | nil => rfl
    | cons e rest ih =>
      obtain ⟨x, t⟩ := e
      by_cases ht : t = 0
      · subst ht
        rw [tickQueue_cons, if_pos rfl, ih]
        simp [List.filter_cons]
      · rw [tickQueue_cons, if_neg ht, ih]
        simp [List.filter_cons, ht]

/-- Witness for C4: on a delay-2 connection holding one unrelated entry, the
freshly queued block `cb2` is delivered on tick 3. -/
theorem c4_delay_queue_witness :
    cb2 ∈ deliveredOnTick 3 (queueBlockC cCon cb2).blocks_to_send :=
  (c4_delay_queue cCon cb2 3 (by decide) (by decide)).1.mpr (by decide)

theorem foldl_bind_none (O : SimOracle) (l : List Nat) :
    l.foldl (fun acc t => acc.bind (worldTick O t)) none = none := by
  induction l with
  | nil => rfl
  | cons t rest ih => exact ih

theorem foldl_range'_applyTicks (O : SimOracle) (n t0 : Nat) (ms : List MinerSt) :
    (List.range' t0 n).foldl (fun acc t => acc.bind (worldTick O t)) (some ms) =
      applyTicks O t0 n ms := by
  induction n generalizing t0 ms with
  | zero => rfl
  | succ n ih =>
    rw [List.range'_succ, List.foldl_cons, Option.some_bind]
    have happ : applyTicks O t0 (n + 1) ms =
        (worldTick O t0 ms).bind (applyTicks O (t0 + 1) n) := rfl
    rw [happ]
    cases hw : worldTick O t0 ms with
    | none =>
      rw [Option.none_bind]
      exact foldl_bind_none O _
    | some ms' =>
      rw [Option.some_bind]
      exact ih _ _

/-- Claim C5, counterexample: with 1 period, the driver loop
`for t in range(1, 600)` executes 599 ticks, not `1 * 600`. -/
theorem c5_not_600_ticks : (simTicks 1).length = 599 ∧ (simTicks 1).length ≠ 1 * 600 := by
  have h : (simTicks 1).length = 599 := by
    show (List.range' 1 (secondsToSimulate 1 - 1)).length = 599
    rw [List.length_range']
    rfl
  exact ⟨h, by rw [h]; decide⟩

/-- Claim C5 (amended): for a duration of `p` 600-second periods, the driver
loop runs its body (one deliver phase over all miners, then one mine phase
over all miners) exactly `p * 600 - 1` times — `t` ranges over
`range(1, p*600)` — and then terminates. -/
theorem c5_tick_count (O : SimOracle) (p : Nat) (ms : List MinerSt) :
    (simTicks p).length = p * 600 - 1 ∧
    runMain O p ms = applyTicks O 1 (p * 600 - 1) ms := by
  constructor
  · show (List.range' 1 (secondsToSimulate p - 1)).length = p * 600 - 1
    rw [List.length_range']
    rfl
  · show (List.range' 1 (secondsToSimulate p - 1)).foldl _ (some ms) = _
    rw [foldl_range'_applyTicks]
    rfl

/-- Claim C7, violation trace: starting from initialization, receive the
orphan `rbBlk` (parent unknown), then let `mine` succeed at tick 3.  The
found block is exactly `rbBlk`'s parent `pBlk`; it is inserted into
`known_blocks` but `refresh_rejects` is not run (contradicting the comment at
sim.py 133-135), so the reachable state `c7State` has `rbBlk` in
`rejected_blocks` while `rbBlk`'s parent is in `known_blocks`. -/
theorem c7_mine_skips_refresh :
    ∃ s2, (receiveBlock (initMiner 0 gBlk) rbBlk).bind (fun s => mine s 3 true 0) = some s2 ∧
      rbBlk ∈ s2.rejected_blocks ∧
      rbBlk.parent? = some pBlk ∧
      pBlk ∈ s2.known_blocks :=
  ⟨c7State, by decide⟩

theorem worldTick_oracleNone_const (t : Nat) :
    worldTick oracleNone t initWorld = some initWorld := rfl

theorem foldl_worldTick_const (l : List Nat) :
    l.foldl (fun acc t => acc.bind (worldTick oracleNone t)) (some initWorld) =
      some initWorld := by
  induction l with
  | nil => rfl
  | cons t rest ih =>
    rw [List.foldl_cons, Option.some_bind, worldTick_oracleNone_const]
    exact ih

/-- Claim C8: a full 1-period run in which no Bernoulli draw succeeds ends
with every miner's `blocks_mined = 0`, and there the end-of-run stale-rate
computation `stale_blocks / blocks_mined` is undefined (`none`, the
`ZeroDivisionError` of sim.py 225) — the code traps instead of reporting 0. -/
theorem c8_zero_mined_stale_rate_traps :
    runMain oracleNone 1 initWorld = some initWorld ∧
    ∀ m ∈ initWorld, m.blocks_mined = 0 ∧ staleRate m = none := by
  exact ⟨foldl_worldTick_const (simTicks 1), by decide⟩

/-- Claim C2: the hash stored in `known_blocks` depends on the miner object's
memory address — two runs identical in every declared input (seed, topology,
hashrates, duration) but with the miner objects allocated at different
addresses give the same block different hashes, while the miner-less genesis
block is unaffected.  (The mining draws additionally come from the unseeded
process-global `random` module.) -/
theorem c2_hash_depends_on_address :
    blockHashStr addrsA pBlk ≠ blockHashStr addrsB pBlk ∧
    blockHashStr addrsA gBlk = blockHashStr addrsB gBlk := by decide

/-- Claim C1, counterexample to the candidate part: miner 0 (tip = genesis,
height 0) first receives `cb2` (height 2), which is orphaned, then receives its
parent `cb1`.  Reconciliation moves `cb2` out of `rejected_blocks` into
`known_blocks`, and `cb2`'s height strictly exceeds the tip height at that
moment — yet `cb2` is not added to `block_candidates`: only the directly
received `cb1` is. -/
theorem c1_reconciled_orphan_not_candidate :
    receiveBlock (initMiner 0 gBlk) cb2 = some cwAfterOrphan ∧
    cb2 ∈ cwAfterOrphan.rejected_blocks ∧
    receiveBlock cwAfterOrphan cb1 = some cwAfterRecon ∧
    cb2 ∈ cwAfterRecon.known_blocks ∧
    cb2 ∉ cwAfterRecon.rejected_blocks ∧
    cb2.height > cwAfterRecon.current_block.height ∧
    cb2 ∉ cwAfterRecon.block_candidates := by decide

/-- Claim C1 (amended): for every miner state satisfying the orphan invariant
(no rejected block's parent is known) and every orphan `b` in
`rejected_blocks`, after any sequence of `receive_block` calls at the end of
which every ancestor of `b` is in `known_blocks`, the orphan has been moved
out of `rejected_blocks` into `known_blocks`.  (It is *not* added to the
candidate set — see the counterexample.) -/
theorem c1_reconciliation_completeness (s : MinerSt) (bs : List Block) (s' : MinerSt)
    (b p : Block)
    (hinv : RejInv s)
    (hrun : receiveSeq s bs = some s')
    (hb : b ∈ s.rejected_blocks)
    (hp : b.parent? = some p)
    (hanc : ∀ a ∈ b.ancestors, a ∈ s'.known_blocks) :
    b ∈ s'.known_blocks ∧ b ∉ s'.rejected_blocks := by
  have hpk : p ∈ s'.known_blocks := by
    apply hanc
    cases b with
    | genesis _ _ _ => cases hp
    | mined hh tt q mo =>
      have hqp : q = p := Option.some.inj hp
      subst hqp
      rw [ancestors_mined]
      exact List.mem_cons_self _ _
  have hinv' := receiveSeq_rejInv hrun hinv
  have hnotrej : b ∉ s'.rejected_blocks := fun hr => hinv' b hr p hp hpk
  rcases receiveSeq_keep hrun b (Or.inr hb) with hk | hr
  · exact ⟨hk, hnotrej⟩
  · exact absurd hr hnotrej

/-- Witness for C1 (amended), on the concrete orphan scenario: with `cb2`
orphaned, delivering the missing ancestor `cb1` reconciles `cb2`. -/
theorem c1_reconciliation_completeness_witness :
    cb2 ∈ cwAfterRecon.known_blocks ∧ cb2 ∉ cwAfterRecon.rejected_blocks :=
  c1_reconciliation_completeness cwAfterOrphan [cb1] cwAfterRecon cb2 cb1
    (by
      intro rb hrb q hq
      rw [show cwAfterOrphan.rejected_blocks = [cb2] from rfl, List.mem_singleton] at hrb
      subst hrb
      injection hq with hq'
      subst hq'
      decide)
    (by decide) (by decide) (by decide) (by decide)

/-- Claim C6: duplicate delivery is a no-op — if `receive_block` turned state
`m` into `m1`, delivering the same block again leaves `m1` exactly as it is
(in particular `known_blocks` and the candidate set are unchanged). -/
theorem c6_duplicate_delivery_noop (m m1 : MinerSt) (b : Block)
    (h : receiveBlock m b = some m1) : receiveBlock m1 b = some m1 := by
  cases b with
  | genesis hh tt mo => rw [receiveBlock_genesis] at h; cases h
  | mined hh tt p mo =>
    rw [receiveBlock_mined] at h
    rw [receiveBlock_mined]
    by_cases hk : Block.mined hh tt p mo ∈ m.known_blocks
    · rw [if_pos hk] at h
      have hm : m = m1 := Option.some.inj h
      subst hm
      rw [if_pos hk]
    · rw [if_neg hk] at h
      by_cases hp : p ∈ m.known_blocks
      · rw [if_pos hp] at h
        obtain ⟨kr, hkr, hm1⟩ := Option.map_eq_some'.mp h
        have hbk : Block.mined hh tt p mo ∈ m1.known_blocks := by
          rw [← hm1]
          exact refreshAux_known_mono hkr _ (mem_insertBlock_self _ _)
        rw [if_pos hbk]
      · rw [if_neg hp] at h
        have hm1 : m1 = { m with
            rejected_blocks := insertBlock m.rejected_blocks (Block.mined hh tt p mo) } :=
          (Option.some.inj h).symm
        have hk1 : Block.mined hh tt p mo ∉ m1.known_blocks := by rw [hm1]; exact hk
        have hp1 : p ∉ m1.known_blocks := by rw [hm1]; exact hp
        rw [if_neg hk1, if_neg hp1]
        have hmem : Block.mined hh tt p mo ∈ m1.rejected_blocks := by
          rw [hm1]
          exact mem_insertBlock_self _ _
        have hins : insertBlock m1.rejected_blocks (Block.mined hh tt p mo) =
            m1.rejected_blocks := by
          unfold insertBlock
          rw [if_pos hmem]
        rw [hins]

/-- Witness for C6: miner 0 receives `cb1` (parent known), then receives it
again; the second call returns the state unchanged. -/
theorem c6_duplicate_delivery_noop_witness :
    receiveBlock cwKnown1 cb1 = some cwKnown1 :=
  c6_duplicate_delivery_noop (initMiner 0 gBlk) cwKnown1 cb1 (by decide)

/-- Claim C10: receiving a block that is unknown and whose parent is unknown
changes only `rejected_blocks` (the block is stored there); `known_blocks`,
the tip, the candidate set, the mined counter and the outgoing connection
queues are all untouched. -/
theorem c10_orphan_frame (m : MinerSt) (b p : Block)
    (hp : b.parent? = some p)
    (hb : b ∉ m.known_blocks)
    (hpar : p ∉ m.known_blocks) :
    receiveBlock m b = some { m with rejected_blocks := insertBlock m.rejected_blocks b } := by
  cases b with
  | genesis hh tt mo => cases hp
  | mined hh tt q mo =>
    have hq : q = p := Option.some.inj hp
    subst hq
    rw [receiveBlock_mined, if_neg hb, if_neg hpar]

/-- Witness for C10: receiving the orphan `cb2` in the initial state only adds
it to `rejected_blocks`. -/
theorem c10_orphan_frame_witness :
    receiveBlock (initMiner 0 gBlk) cb2 =
      some { initMiner 0 gBlk with
        rejected_blocks := insertBlock (initMiner 0 gBlk).rejected_blocks cb2 } :=
  c10_orphan_frame (initMiner 0 gBlk) cb2 cb1 (by decide) (by decide) (by decide)

/-- Claim C3: whenever the candidate set contains a self-mined block of
maximum candidate height, evaluation picks a self-mined maximum-height block
as the new tip, the outcome is the same whatever the random draw, and the
candidate set is cleared. -/
theorem c3_self_preference (m : MinerSt) (r r' : Nat) (c : Block)
    (hc : c ∈ m.block_candidates)
    (hmax : ∀ b ∈ m.block_candidates, b.height ≤ c.height)
    (hmine : isMine m.minerId c = true) :
    ∃ m', evaluateCandidates m r = some m' ∧
      evaluateCandidates m r' = some m' ∧
      m'.current_block ∈ m.block_candidates ∧
      isMine m.minerId m'.current_block = true ∧
      (∀ b ∈ m.block_candidates, b.height ≤ m'.current_block.height) ∧
      m'.block_candidates = [] := by
  obtain ⟨maxH, hpy⟩ : ∃ maxH, pyMax (m.block_candidates.map Block.height) = some maxH := by
    apply Option.isSome_iff_exists.mp
    apply pyMax_isSome
    intro h0
    rw [List.map_eq_nil_iff] at h0
    rw [h0] at hc
    cases hc
  obtain ⟨hmem, hub⟩ := pyMax_spec hpy
  have hcle : c.height ≤ maxH := hub _ (List.mem_map_of_mem Block.height hc)
  have hmle : maxH ≤ c.height := by
    obtain ⟨b, hb, hbh⟩ := List.mem_map.mp hmem
    rw [← hbh]
    exact hmax b hb
  have hch : c.height = maxH := Nat.le_antisymm hcle hmle
  have hctop : c ∈ m.block_candidates.filter (fun b => b.height == maxH) :=
    List.mem_filter.mpr ⟨hc, beq_iff_eq.mpr hch⟩
  obtain ⟨own, hfind⟩ : ∃ own,
      (m.block_candidates.filter (fun b => b.height == maxH)).find?
        (fun b => isMine m.minerId b) = some own := by
    apply Option.isSome_iff_exists.mp
    rw [List.find?_isSome]
    exact ⟨c, hctop, hmine⟩
  have hown := List.find?_some hfind
  have howntop := List.mem_of_find?_eq_some hfind
  obtain ⟨hownmem, hownh⟩ := List.mem_filter.mp howntop
  refine ⟨{ m with current_block := own, block_candidates := [] }, ?_, ?_, hownmem,
    hown, ?_, rfl⟩
  · unfold evaluateCandidates
    rw [hpy, Option.some_bind]
    simp only [hfind, Option.elim_some]
  · unfold evaluateCandidates
    rw [hpy, Option.some_bind]
    simp only [hfind, Option.elim_some]
  · intro b hb
    have : b.height ≤ maxH := hub _ (List.mem_map_of_mem Block.height hb)
    have hoh : own.height = maxH := beq_iff_eq.mp hownh
    simpa [hoh] using this

/-- Witness for C3: candidates `[cb1, ownBlk]` of equal height 1 where only
`ownBlk` is miner 0's own; evaluation with draws 0 and 5 picks `ownBlk` and
clears the candidates. -/
theorem c3_self_preference_witness :
    ∃ m', evaluateCandidates cwTie 0 = some m' ∧
      evaluateCandidates cwTie 5 = some m' ∧
      m'.current_block ∈ cwTie.block_candidates ∧
      isMine cwTie.minerId m'.current_block = true ∧
      (∀ b ∈ cwTie.block_candidates, b.height ≤ m'.current_block.height) ∧
      m'.block_candidates = [] :=
  c3_self_preference cwTie 0 5 ownBlk (by decide) (by decide) (by decide)

/-- Claim C9: fork-choice evaluation fails exactly on an empty candidate set
(Python `max` raises there), succeeds on any non-empty one, and `mine`'s call
discipline (evaluate only when candidates exist) makes that failure
unreachable: `mine` never fails. -/
theorem c9_evaluate_precondition (m : MinerSt) (t r : Nat) (succ : Bool) :
    (m.block_candidates = [] → evaluateCandidates m r = none) ∧
    (m.block_candidates ≠ [] → (evaluateCandidates m r).isSome = true) ∧
    (mine m t succ r).isSome = true := by
  have heval : m.block_candidates ≠ [] → (evaluateCandidates m r).isSome = true := by
    intro hne
    obtain ⟨maxH, hpy⟩ : ∃ maxH, pyMax (m.block_candidates.map Block.height) = some maxH := by
      apply Option.isSome_iff_exists.mp
      apply pyMax_isSome
      intro h0
      exact hne (List.map_eq_nil_iff.mp h0)
    obtain ⟨hmem, _⟩ := pyMax_spec hpy
    obtain ⟨b, hb, hbh⟩ := List.mem_map.mp hmem
    have hbtop : b ∈ m.block_candidates.filter (fun x => x.height == maxH) :=
      List.mem_filter.mpr ⟨hb, beq_iff_eq.mpr hbh⟩
    have hlen : 0 < (m.block_candidates.filter (fun x => x.height == maxH)).length :=
      List.length_pos.mpr (fun h0 => by rw [h0] at hbtop; cases hbtop)
    unfold evaluateCandidates
    rw [hpy, Option.some_bind]
    match hfind : (m.block_candidates.filter (fun x => x.height == maxH)).find?
      (fun x => isMine m.minerId x) with
    | some own => simp only [hfind, Option.elim_some, Option.isSome_some]
    | none =>
      simp only [hfind, Option.elim_none]
      rw [List.getElem?_eq_getElem (Nat.mod_lt r hlen)]
      rfl
  refine ⟨?_, heval, ?_⟩
  · intro h0
    unfold evaluateCandidates
    rw [h0]
    rfl
  · unfold mine
    by_cases hne : m.block_candidates = []
    · rw [if_neg (by rw [hne]; exact Nat.lt_irrefl 0)]
      rw [Option.some_bind]
      cases succ <;> rfl
    · rw [if_pos (List.length_pos.mpr hne)]
      obtain ⟨m1, hm1⟩ := Option.isSome_iff_exists.mp (heval hne)
      rw [hm1, Option.some_bind]
      cases succ <;> rfl

/-- Witness for C9: evaluation fails on the fresh miner (empty candidates),
succeeds on the tie state, and `mine` succeeds in both situations. -/
theorem c9_evaluate_precondition_witness :
    evaluateCandidates (initMiner 0 gBlk) 0 = none ∧
    (evaluateCandidates cwTie 0).isSome = true ∧
    (mine (initMiner 0 gBlk) 1 true 0).isSome = true ∧
    (mine cwTie 1 false 3).isSome = true :=
  ⟨(c9_evaluate_precondition (initMiner 0 gBlk) 1 0 true).1 rfl,
   (c9_evaluate_precondition cwTie 1 0 true).2.1 (by decide),
   (c9_evaluate_precondition (initMiner 0 gBlk) 1 0 true).2.2,
   (c9_evaluate_precondition cwTie 1 3 false).2.2⟩
